import Mathlib

/-!
# Verification of the pixel-editing engine of Ai-Pixel-Dreamer

Shallow embedding of the raster operations of `src/App.tsx`:

* `removeColor` (App.tsx lines 1139–1173): global tolerance-based color
  masking ("magic wand" background removal);
* `floodFill` (App.tsx lines 1174–1244): stack-based 4-connected flood fill;
* `handleAssembleSheet` (App.tsx lines 293–360): sprite-sheet grid
  compositing with spacing and alignment.

The canvas `ImageData.data` byte array stores one RGBA quadruple at byte
offset `4 * (y * width + x)` for the pixel at `(x, y)`; we model each
quadruple as one `Pix` record addressed by the linear pixel index
`y * width + x`, since every access in the source is pixel-aligned
(`targetIndex = (startY * width + startX) * 4`, loop stride 4).

JavaScript reads of the typed array outside its range yield `undefined`;
every comparison of `undefined` with a number (`===`, `<=`, `>`) is false.
We model such reads as `Option Pix` (`readPix`), with `none` standing for
`undefined`, and each use-site spells out what the source's comparisons
do on `none`.
-/

namespace PixelDreamer

/-- One RGBA pixel: the four consecutive bytes
`data[i], data[i+1], data[i+2], data[i+3]` of the canvas image data. -/
structure Pix where
  r : Nat
  g : Nat
  b : Nat
  a : Nat
deriving DecidableEq, Repr

/-- A canvas pixel buffer: `width`, `height`, and the image data addressed
by linear pixel index `y * width + x` (row-major, origin top-left). -/
structure Buffer where
  width : Nat
  height : Nat
  data : Nat → Pix

/-- Convenience constructor for concrete buffers: pixels listed row-major. -/
def mkBuf (w h : Nat) (l : List Pix) : Buffer :=
  ⟨w, h, fun i => l.getD i ⟨0, 0, 0, 0⟩⟩

/-- The coordinate `(x, y)` is inside the canvas extents. Coordinates are
integers because the flood-fill frontier stack holds values such as `x - 1`. -/
def inBds (W H : Nat) (p : Int × Int) : Prop :=
  0 ≤ p.1 ∧ p.1 < (W : Int) ∧ 0 ≤ p.2 ∧ p.2 < (H : Int)

instance (W H : Nat) (p : Int × Int) : Decidable (inBds W H p) := by
  unfold inBds; infer_instance

/-- Linear pixel index of a coordinate: `y * width + x`
(the source's `pixelPos = (y * width + x) * 4`, divided by the 4 bytes
per pixel that one `Pix` already groups). -/
def toIdx (W : Nat) (p : Int × Int) : Nat :=
  (p.2 * W + p.1).toNat

/-- Read of the image data at a (possibly out-of-range) linear index:
`some` pixel when the index is inside the array, `none` for the
JavaScript `undefined` produced by an out-of-range typed-array read. -/
def readPix (b : Buffer) (idx : Int) : Option Pix :=
  if 0 ≤ idx ∧ idx < (b.width * b.height : Nat) then some (b.data idx.toNat)
  else none

/-- The masking tolerance of `removeColor`
(`const tolerance = 15` at App.tsx line 1160). -/
def tolerance : Nat := 15

/-- One channel comparison of the masking loop:
`Math.abs(data[i] - r) <= tolerance`. -/
def chanNear (x t : Nat) : Prop := ((x : Int) - (t : Int)).natAbs ≤ tolerance

instance (x t : Nat) : Decidable (chanNear x t) := by
  unfold chanNear; infer_instance

/-- Body of the masking loop of `removeColor` (App.tsx lines 1162–1170),
applied to one pixel `p` with target color `t`: if every RGB channel is
within tolerance and the pixel's alpha is positive, the alpha is set to 0;
RGB is left untouched. -/
def maskPix (t p : Pix) : Pix :=
  if chanNear p.r t.r ∧ chanNear p.g t.g ∧ chanNear p.b t.b ∧ 0 < p.a then
    { p with a := 0 }
  else p

/-- `removeColor(startX, startY)` (App.tsx lines 1139–1173). The target
color is read at linear index `startY * width + startX` with no bounds
check on the coordinates. When that read is `undefined` (index outside
the array) the source's `a === 0` test and every tolerance comparison in
the loop are false, so the buffer comes back unchanged — the `none`
branch. When the target alpha is 0 the source returns early. Otherwise
the loop applies `maskPix` to every pixel of the array. -/
def removeColor (b : Buffer) (startX startY : Int) : Buffer :=
  match readPix b (startY * b.width + startX) with
  | none => b
  | some t =>
    if t.a = 0 then b
    else { b with data := fun i => if i < b.width * b.height then maskPix t (b.data i) else b.data i }

-- out-of-bounds seed (2,0) on a 2x2 buffer wraps to linear index 2 = pixel (0,1)
/-! ## Flood fill (App.tsx lines 1174–1244) -/

/-- The alpha of the fill color (`const fillA = 255` at App.tsx line 1198):
the fill color always has full opacity, whatever the hex color parses to. -/
def fillAlpha : Nat := 255

/-- The four neighbors pushed after filling a pixel, listed so that the
head is the top of the stack: the source pushes `[x+1,y]`, `[x-1,y]`,
`[x,y+1]`, `[x,y-1]` in this order, and `pop` takes the last push first. -/
def neighbors (x y : Int) : List (Int × Int) :=
  [(x, y - 1), (x, y + 1), (x - 1, y), (x + 1, y)]

/-- One iteration of the `while (pixelStack.length)` loop of `floodFill`
(App.tsx lines 1210–1241) on the state (frontier stack, image data):
pop a coordinate; discard it if out of bounds; otherwise, if the pixel
exactly equals the target color (`some (d pixelPos) = tgt`; when the
target read was `undefined` — `tgt = none` — the four `===` comparisons
are all false), overwrite it with the fill color and push its four
neighbors. The stack is a list whose head is the top. -/
def floodStep (W H : Nat) (tgt : Option Pix) (fc : Pix) :
    List (Int × Int) × (Nat → Pix) → List (Int × Int) × (Nat → Pix)
  | ([], d) => ([], d)
  | ((x, y) :: rest, d) =>
    if x < 0 ∨ (W : Int) ≤ x ∨ y < 0 ∨ (H : Int) ≤ y then (rest, d)
    else
      if some (d (toIdx W (x, y))) = tgt then
        (neighbors x y ++ rest, Function.update d (toIdx W (x, y)) fc)
      else (rest, d)

/-- The `while` loop of `floodFill`, run with explicit fuel. The source's
loop runs until the stack is empty; `floodLoop_run` below shows that with
the fuel `floodFill` supplies, the loop always reaches the empty stack
(each iteration strictly decreases `5 * (number of target-colored
in-range pixels) + stack length` once the no-progress guard has ensured
the target differs from the fill color), so the fuel never cuts the
computation short. -/
def floodLoop (W H : Nat) (tgt : Option Pix) (fc : Pix) :
    Nat → List (Int × Int) × (Nat → Pix) → List (Int × Int) × (Nat → Pix)
  | 0, st => st
  | _ + 1, ([], d) => ([], d)
  | fuel + 1, (p :: L, d) => floodLoop W H tgt fc fuel (floodStep W H tgt fc (p :: L, d))

/-- `floodFill(startX, startY)` (App.tsx lines 1174–1244). The target
color is read at linear index `startY * width + startX` with no bounds
check. `fr`, `fg`, `fb` are the RGB components the source obtains from
`hexToRgb(color)`; the fill alpha is the constant 255. If the target
equals the fill color exactly on all four channels (with an `undefined`
target every `===` is false), the source returns without filling;
otherwise it runs the stack loop seeded with `[startX, startY]`. -/
def floodFill (b : Buffer) (startX startY : Int) (fr fg fb : Nat) : Buffer :=
  if readPix b (startY * b.width + startX) = some ⟨fr, fg, fb, fillAlpha⟩ then b
  else
    { b with
      data :=
        (floodLoop b.width b.height (readPix b (startY * b.width + startX))
          ⟨fr, fg, fb, fillAlpha⟩ (5 * (b.width * b.height) + 1)
          ([(startX, startY)], b.data)).2 }

/-! ## Sprite-sheet assembly (App.tsx lines 293–360) -/

/-- The `sheetHorizontalAlignment` state values. -/
inductive HAlign where
  | left
  | center
  | right
deriving DecidableEq, Repr

/-- The `sheetVerticalAlignment` state values. -/
inductive VAlign where
  | top
  | center
  | bottom
deriving DecidableEq, Repr

/-- Outcome of `handleAssembleSheet`: a composed canvas stored through
`setGeneratedImage`, a silent early return (the `if (sheetImages.length
=== 0) return;` guard), or the catch branch that surfaces a message via
`setError` — the latter only fires when decoding a source image fails,
which is outside the engine (images here are already decoded buffers). -/
inductive AsmResult where
  | ok (b : Buffer)
  | silentNoop
  | err (msg : String)

/-- `Math.max(...loadedImages.map(i => i.width))` for a non-empty list
(`Math.max` of a non-empty list of naturals equals its fold by `max`
from 0, since all values are nonnegative). -/
def maxWidthOf (imgs : List Buffer) : Nat :=
  (imgs.map Buffer.width).foldl max 0

/-- `Math.max(...loadedImages.map(i => i.height))`. -/
def maxHeightOf (imgs : List Buffer) : Nat :=
  (imgs.map Buffer.height).foldl max 0

/-- Horizontal alignment offset within a cell (App.tsx lines 336–341):
0 for left, `Math.floor((maxWidth - img.width) / 2)` for center,
`maxWidth - img.width` for right. -/
def xOffsetOf (hA : HAlign) (maxW w : Nat) : Nat :=
  match hA with
  | .left => 0
  | .center => (maxW - w) / 2
  | .right => maxW - w

/-- Vertical alignment offset within a cell (App.tsx lines 343–348). -/
def yOffsetOf (vA : VAlign) (maxH h : Nat) : Nat :=
  match vA with
  | .top => 0
  | .center => (maxH - h) / 2
  | .bottom => maxH - h

/-- Horizontal draw position of image number `j`:
`col * (maxWidth + spacing) + xOffset` with `col = j % cols`. -/
def drawX (cols maxW spacing : Nat) (hA : HAlign) (j : Nat) (img : Buffer) : Nat :=
  (j % cols) * (maxW + spacing) + xOffsetOf hA maxW img.width

/-- Vertical draw position of image number `j`:
`row * (maxHeight + spacing) + yOffset` with `row = Math.floor(j / cols)`. -/
def drawY (cols maxH spacing : Nat) (vA : VAlign) (j : Nat) (img : Buffer) : Nat :=
  (j / cols) * (maxH + spacing) + yOffsetOf vA maxH img.height

/-- `ctx.drawImage(img, ox, oy)` on a canvas of width `dstW`, modeled as a
plain copy of the source rectangle: the destination rectangles of
`handleAssembleSheet` are pairwise disjoint and the canvas is
zero-initialized fully transparent, so canvas source-over compositing
writes exactly the source pixels there. -/
def blit (dstW : Nat) (img : Buffer) (ox oy : Nat) (d : Nat → Pix) : Nat → Pix :=
  fun idx =>
    if ox ≤ idx % dstW ∧ idx % dstW < ox + img.width ∧
        oy ≤ idx / dstW ∧ idx / dstW < oy + img.height then
      img.data ((idx / dstW - oy) * img.width + (idx % dstW - ox))
    else d idx

/-- The `loadedImages.forEach((img, i) => ...)` drawing loop (App.tsx
lines 328–352): draw each image at its cell origin plus alignment
offset; `i` is the running index in the input sequence. -/
def drawAll (canvasW maxW maxH cols spacing : Nat) (hA : HAlign) (vA : VAlign) :
    List Buffer → Nat → (Nat → Pix) → (Nat → Pix)
  | [], _, d => d
  | img :: rest, i, d =>
    drawAll canvasW maxW maxH cols spacing hA vA rest (i + 1)
      (blit canvasW img (drawX cols maxW spacing hA i img) (drawY cols maxH spacing vA i img) d)

/-- A fully transparent pixel: freshly created canvases are
zero-initialized. -/
def transparent : Pix := ⟨0, 0, 0, 0⟩

/-- `handleAssembleSheet` (App.tsx lines 293–360), after the images have
been decoded (decoding is external to the engine). With zero images the
source returns before doing anything (`if (sheetImages.length === 0)
return;`, and again `if (loadedImages.length === 0) return;`) — no error
is reported. Otherwise: `rows = Math.ceil(length / cols)` (equal to
`(length + cols - 1) / cols` in natural division for `cols ≥ 1`), the
canvas is `cols*maxW + (cols-1)*spacing` by `rows*maxH + (rows-1)*spacing`,
overridden to exactly `maxW` by `maxH` when there is a single image, and
every image is drawn by the `forEach` loop. -/
def handleAssembleSheet (imgs : List Buffer) (cols spacing : Nat)
    (hA : HAlign) (vA : VAlign) : AsmResult :=
  if imgs.length = 0 then .silentNoop
  else
    let maxW := maxWidthOf imgs
    let maxH := maxHeightOf imgs
    let rows := (imgs.length + cols - 1) / cols
    let canvasW := if imgs.length = 1 then maxW else cols * maxW + (cols - 1) * spacing
    let canvasH := if imgs.length = 1 then maxH else rows * maxH + (rows - 1) * spacing
    .ok
      { width := canvasW, height := canvasH,
        data := drawAll canvasW maxW maxH cols spacing hA vA imgs 0 (fun _ => transparent) }

/-- The canvas width of a successful assembly, if any. -/
def asmWidth : AsmResult → Option Nat
  | .ok b => some b.width
  | _ => none

/-- The canvas height of a successful assembly, if any. -/
def asmHeight : AsmResult → Option Nat
  | .ok b => some b.height
  | _ => none

/-- A pixel of a successful assembly's canvas, if any. -/
def asmPix (r : AsmResult) (i : Nat) : Option Pix :=
  match r with
  | .ok b => some (b.data i)
  | _ => none

/-! ## 4-connectivity, components, and the flood-fill loop invariant -/

/-- `q` is one of the four (up/down/left/right) neighbors of `p` — the
coordinates the source pushes after filling `p`. -/
def Adjacent (p q : Int × Int) : Prop :=
  q = (p.1 + 1, p.2) ∨ q = (p.1 - 1, p.2) ∨ q = (p.1, p.2 + 1) ∨ q = (p.1, p.2 - 1)

/-- Reachability through 4-connected steps staying inside the pixel set
`P`: every coordinate on the path, endpoints included, satisfies `P`. -/
inductive ReachP (P : Int × Int → Prop) : Int × Int → Int × Int → Prop where
  | refl (p : Int × Int) : P p → ReachP P p p
  | step (p q r : Int × Int) : P p → Adjacent p q → ReachP P q r → ReachP P p r

/-- The pixel at `p` is in bounds and its original color is exactly `T`
(all four RGBA channels — the per-channel `===` match of the fill loop). -/
def matchPix (W H : Nat) (d0 : Nat → Pix) (T : Pix) (p : Int × Int) : Prop :=
  inBds W H p ∧ d0 (toIdx W p) = T

/-- The 4-connected component, in buffer `b`, of pixels exactly equal to
the color at `s`, containing `s`. -/
def Component (b : Buffer) (s p : Int × Int) : Prop :=
  ReachP (matchPix b.width b.height b.data (b.data (toIdx b.width s))) s p

/-- Number of in-range pixel indices currently holding the exact color
`T`: the decreasing part of the loop measure. -/
def cntT (W H : Nat) (T : Pix) (d : Nat → Pix) : Nat :=
  ((Finset.range (W * H)).filter (fun i => d i = T)).card

/-- Invariant of the flood-fill loop, relative to the original data `d0`,
target color `T`, fill color `fc` and seed `s0`. The set `S` collects the
already-filled pixels: every filled pixel lies in the component of the
seed and holds the fill color; every index not written by a fill still
holds its original value; every stack entry is the seed or a neighbor of
a filled pixel (so a matching pop is in the component); and every
unfilled component pixel is reachable from some stack entry through
unfilled component pixels (so nothing is missed). -/
def FFInv (W H : Nat) (d0 : Nat → Pix) (T fc : Pix) (s0 : Int × Int)
    (st : List (Int × Int) × (Nat → Pix)) : Prop :=
  ∃ S : Int × Int → Prop,
    (∀ p, S p → ReachP (matchPix W H d0 T) s0 p) ∧
    (∀ p, S p → st.2 (toIdx W p) = fc) ∧
    (∀ i, (∀ p, S p → toIdx W p ≠ i) → st.2 i = d0 i) ∧
    (∀ p, p ∈ st.1 → p = s0 ∨ ∃ q, S q ∧ Adjacent q p) ∧
    (∀ p, ReachP (matchPix W H d0 T) s0 p → ¬ S p →
      ∃ s, s ∈ st.1 ∧ ReachP (fun q => matchPix W H d0 T q ∧ ¬ S q) s p)

/-! ## Index arithmetic -/

theorem linIdx_bounds {W H : Nat} {p : Int × Int} (h : inBds W H p) :
    0 ≤ p.2 * W + p.1 ∧ p.2 * W + p.1 < ((W * H : Nat) : Int) := by
  obtain ⟨hx0, hxW, hy0, hyH⟩ := h
  have hW0 : (0 : Int) ≤ (W : Int) := Int.ofNat_nonneg W
  have h3 : (p.2 + 1) * (W : Int) ≤ (H : Int) * (W : Int) :=
    mul_le_mul_of_nonneg_right (by omega) hW0
  constructor
  · have : 0 ≤ p.2 * (W : Int) := mul_nonneg hy0 hW0
    omega
  · have h4 : p.2 * (W : Int) + p.1 < (H : Int) * (W : Int) := by
      calc p.2 * (W : Int) + p.1 < p.2 * (W : Int) + (W : Int) := by omega
        _ = (p.2 + 1) * (W : Int) := by ring
        _ ≤ (H : Int) * (W : Int) := h3
    have h5 : ((W * H : Nat) : Int) = (H : Int) * (W : Int) := by push_cast; ring
    omega

theorem toIdx_lt {W H : Nat} {p : Int × Int} (h : inBds W H p) : toIdx W p < W * H := by
  obtain ⟨h1, h2⟩ := linIdx_bounds h
  unfold toIdx
  omega

theorem toIdx_inj {W H : Nat} {p q : Int × Int} (hp : inBds W H p) (hq : inBds W H q)
    (h : toIdx W p = toIdx W q) : p = q := by
  obtain ⟨hpx0, hpxW, hpy0, hpyH⟩ := hp
  obtain ⟨hqx0, hqxW, hqy0, hqyH⟩ := hq
  have hW0 : (0 : Int) ≤ (W : Int) := Int.ofNat_nonneg W
  have hA : 0 ≤ p.2 * (W : Int) := mul_nonneg hpy0 hW0
  have hB : 0 ≤ q.2 * (W : Int) := mul_nonneg hqy0 hW0
  unfold toIdx at h
  have he : p.2 * (W : Int) + p.1 = q.2 * (W : Int) + q.1 := by omega
  have hy : p.2 = q.2 := by
    rcases lt_trichotomy p.2 q.2 with hlt | heq | hgt
    · exfalso
      have : (p.2 + 1) * (W : Int) ≤ q.2 * (W : Int) :=
        mul_le_mul_of_nonneg_right (by omega) hW0
      have : p.2 * (W : Int) + (W : Int) ≤ q.2 * (W : Int) := by
        calc p.2 * (W : Int) + (W : Int) = (p.2 + 1) * (W : Int) := by ring
          _ ≤ q.2 * (W : Int) := this
      omega
    · exact heq
    · exfalso
      have : (q.2 + 1) * (W : Int) ≤ p.2 * (W : Int) :=
        mul_le_mul_of_nonneg_right (by omega) hW0
      have : q.2 * (W : Int) + (W : Int) ≤ p.2 * (W : Int) := by
        calc q.2 * (W : Int) + (W : Int) = (q.2 + 1) * (W : Int) := by ring
          _ ≤ p.2 * (W : Int) := this
      omega
  have hx : p.1 = q.1 := by rw [hy] at he; omega
  exact Prod.ext hx hy

theorem toIdx_surj {W H : Nat} {i : Nat} (hi : i < W * H) :
    ∃ p : Int × Int, inBds W H p ∧ toIdx W p = i := by
  have hW : 0 < W := by
    rcases Nat.eq_zero_or_pos W with h | h
    · subst h; simp at hi
    · exact h
  refine ⟨(((i % W : Nat) : Int), ((i / W : Nat) : Int)), ⟨?_, ?_, ?_, ?_⟩, ?_⟩
  · show (0 : Int) ≤ ((i % W : Nat) : Int)
    positivity
  · show ((i % W : Nat) : Int) < (W : Int)
    exact_mod_cast Nat.mod_lt i hW
  · show (0 : Int) ≤ ((i / W : Nat) : Int)
    positivity
  · show ((i / W : Nat) : Int) < (H : Int)
    have : i / W < H := Nat.div_lt_of_lt_mul (by omega)
    exact_mod_cast this
  · show ((((i / W : Nat) : Int)) * W + ((i % W : Nat) : Int)).toNat = i
    have hdm : (i / W) * W + i % W = i := Nat.div_add_mod' i W
    have heq : (((i / W : Nat) : Int)) * W + ((i % W : Nat) : Int) = ((i : Nat) : Int) := by
      exact_mod_cast hdm
    rw [heq]
    exact Int.toNat_ofNat i

theorem readPix_at {b : Buffer} {sx sy : Int} (hin : inBds b.width b.height (sx, sy)) :
    readPix b (sy * b.width + sx) = some (b.data (toIdx b.width (sx, sy))) := by
  obtain ⟨h1, h2⟩ := linIdx_bounds hin
  unfold readPix
  rw [if_pos ⟨h1, h2⟩]
  rfl

/-! ## Reachability lemmas -/

theorem ReachP_mono {P Q : Int × Int → Prop} {s p : Int × Int} (h : ∀ q, P q → Q q)
    (hr : ReachP P s p) : ReachP Q s p := by
  induction hr with
  | refl u hu => exact .refl u (h u hu)
  | step u v w hu hadj _ ih => exact .step u v w (h u hu) hadj ih

theorem ReachP_head {P : Int × Int → Prop} {s p : Int × Int} (hr : ReachP P s p) : P s := by
  cases hr with
  | refl _ hu => exact hu
  | step _ _ _ hu _ _ => exact hu

theorem ReachP_last {P : Int × Int → Prop} {s p : Int × Int} (hr : ReachP P s p) : P p := by
  induction hr with
  | refl _ hu => exact hu
  | step _ _ _ _ _ _ ih => exact ih

theorem ReachP_snoc {P : Int × Int → Prop} {s q r : Int × Int} (hr : ReachP P s q)
    (hadj : Adjacent q r) (hP : P r) : ReachP P s r := by
  induction hr with
  | refl u hu => exact .step u r r hu hadj (.refl r hP)
  | step u v w hu hadj2 _ ih => exact .step u v r hu hadj2 (ih hadj)

theorem ReachP_remove {P : Int × Int → Prop} {s p : Int × Int} (x : Int × Int)
    (hr : ReachP P s p) (hne : p ≠ x) :
    ReachP (fun q => P q ∧ q ≠ x) s p ∨
      ∃ n, Adjacent x n ∧ ReachP (fun q => P q ∧ q ≠ x) n p := by
  induction hr with
  | refl u hu => exact .inl (.refl u ⟨hu, hne⟩)
  | step u v w hu hadj _ ih =>
    rcases ih hne with h | h
    · by_cases hux : u = x
      · subst hux
        exact .inr ⟨v, hadj, h⟩
      · exact .inl (.step u v w ⟨hu, hux⟩ hadj h)
    · exact .inr h

theorem mem_neighbors {x y : Int} {n : Int × Int} :
    n ∈ neighbors x y ↔ Adjacent (x, y) n := by
  simp only [neighbors, Adjacent, List.mem_cons, List.mem_singleton, List.not_mem_nil, or_false]
  tauto

/-! ## Loop measure -/

theorem cntT_le {W H : Nat} {T : Pix} {d : Nat → Pix} : cntT W H T d ≤ W * H := by
  unfold cntT
  calc ((Finset.range (W * H)).filter (fun i => d i = T)).card
      ≤ (Finset.range (W * H)).card := Finset.card_filter_le _ _
    _ = W * H := Finset.card_range _

theorem cntT_update {W H : Nat} {T fc : Pix} {d : Nat → Pix} {j : Nat}
    (hj : j < W * H) (hdj : d j = T) (hfc : fc ≠ T) :
    cntT W H T (Function.update d j fc) + 1 = cntT W H T d := by
  unfold cntT
  have hmem : j ∈ (Finset.range (W * H)).filter (fun i => d i = T) := by
    simp only [Finset.mem_filter, Finset.mem_range]
    exact ⟨hj, hdj⟩
  have hset : (Finset.range (W * H)).filter (fun i => Function.update d j fc i = T)
      = ((Finset.range (W * H)).filter (fun i => d i = T)).erase j := by
    ext i
    simp only [Finset.mem_filter, Finset.mem_range, Finset.mem_erase]
    constructor
    · rintro ⟨hir, hiT⟩
      by_cases hij : i = j
      · subst hij
        rw [Function.update_same] at hiT
        exact absurd hiT hfc
      · rw [Function.update_noteq hij] at hiT
        exact ⟨hij, hir, hiT⟩
    · rintro ⟨hij, hir, hiT⟩
      refine ⟨hir, ?_⟩
      rw [Function.update_noteq hij]
      exact hiT
  rw [hset, Finset.card_erase_of_mem hmem]
  have hpos : 0 < ((Finset.range (W * H)).filter (fun i => d i = T)).card :=
    Finset.card_pos.mpr ⟨j, hmem⟩
  omega

/-! ## Invariant preservation -/

theorem FFInv_preserved {W H : Nat} {d0 : Nat → Pix} {T fc : Pix} {s0 : Int × Int}
    (hTfc : T ≠ fc) (x y : Int) (L : List (Int × Int)) (d : Nat → Pix)
    (hInv : FFInv W H d0 T fc s0 ((x, y) :: L, d)) :
    FFInv W H d0 T fc s0 (floodStep W H (some T) fc ((x, y) :: L, d)) ∧
      5 * cntT W H T (floodStep W H (some T) fc ((x, y) :: L, d)).2 +
          (floodStep W H (some T) fc ((x, y) :: L, d)).1.length <
        5 * cntT W H T d + ((x, y) :: L).length := by
  obtain ⟨S, h1, h2, h3, h5, h6⟩ := hInv
  have hSin : ∀ p, S p → inBds W H p := fun p hS => (ReachP_last (h1 p hS)).1
  by_cases hoob : x < 0 ∨ (W : Int) ≤ x ∨ y < 0 ∨ (H : Int) ≤ y
  · -- out-of-bounds pop: discarded, nothing read or written
    simp only [floodStep, if_pos hoob]
    refine ⟨⟨S, h1, h2, h3, ?_, ?_⟩, ?_⟩
    · intro p hp
      exact h5 p (List.mem_cons_of_mem _ hp)
    · intro p hC hnS
      obtain ⟨s, hs, hpath⟩ := h6 p hC hnS
      rcases List.mem_cons.mp hs with rfl | hsL
      · exfalso
        obtain ⟨⟨hx0, hxW, hy0, hyH⟩, _⟩ := (ReachP_head hpath).1
        rcases hoob with h | h | h | h <;> omega
      · exact ⟨s, hsL, hpath⟩
    · dsimp only
      simp only [List.length_cons]
      omega
  · have hinb : inBds W H (x, y) := by
      push_neg at hoob
      exact ⟨hoob.1, hoob.2.1, hoob.2.2.1, hoob.2.2.2⟩
    -- frame fact: if (x,y) is unfilled, its data still holds the original color
    have hframe : ¬ S (x, y) → d (toIdx W (x, y)) = d0 (toIdx W (x, y)) := by
      intro hnS
      refine h3 _ (fun p hS hEq => ?_)
      exact hnS (toIdx_inj (hSin p hS) hinb hEq ▸ hS)
    by_cases hmatch : some (d (toIdx W (x, y))) = some T
    · -- matching pop: fill the pixel, push the four neighbors
      have hd : d (toIdx W (x, y)) = T := Option.some_injective _ hmatch
      simp only [floodStep, if_neg hoob, if_pos hmatch]
      have hp0nS : ¬ S (x, y) := by
        intro hS
        have h := h2 _ hS
        dsimp only at h
        rw [hd] at h
        exact hTfc h
      have hd0 : d0 (toIdx W (x, y)) = T := (hframe hp0nS) ▸ hd
      have hM0 : matchPix W H d0 T (x, y) := ⟨hinb, hd0⟩
      have hC0 : ReachP (matchPix W H d0 T) s0 (x, y) := by
        rcases h5 (x, y) (List.mem_cons_self _ _) with rfl | ⟨q, hSq, hadj⟩
        · exact .refl _ hM0
        · exact ReachP_snoc (h1 q hSq) hadj hM0
      have hidx_lt : toIdx W (x, y) < W * H := toIdx_lt hinb
      refine ⟨⟨fun p => S p ∨ p = (x, y), ?_, ?_, ?_, ?_, ?_⟩, ?_⟩
      · rintro p (hS | rfl)
        · exact h1 p hS
        · exact hC0
      · rintro p (hS | rfl)
        · have hne : toIdx W p ≠ toIdx W (x, y) := fun hEq =>
            hp0nS (toIdx_inj (hSin p hS) hinb hEq ▸ hS)
          show Function.update d (toIdx W (x, y)) fc (toIdx W p) = fc
          rw [Function.update_noteq hne]
          exact h2 p hS
        · exact Function.update_same _ _ _
      · intro i hfr
        have hne : i ≠ toIdx W (x, y) := fun hEq => hfr (x, y) (.inr rfl) hEq.symm
        show Function.update d (toIdx W (x, y)) fc i = d0 i
        rw [Function.update_noteq hne]
        exact h3 i (fun p hS => hfr p (.inl hS))
      · intro p hp
        rcases List.mem_append.mp hp with hpn | hpL
        · exact .inr ⟨(x, y), .inr rfl, mem_neighbors.mp hpn⟩
        · rcases h5 p (List.mem_cons_of_mem _ hpL) with rfl | ⟨q, hSq, hadj⟩
          · exact .inl rfl
          · exact .inr ⟨q, .inl hSq, hadj⟩
      · intro p hC hnS'
        have hnS : ¬ S p := fun h => hnS' (.inl h)
        have hne : p ≠ (x, y) := fun h => hnS' (.inr h)
        obtain ⟨s, hs, hpath⟩ := h6 p hC hnS
        have hmono : ∀ q, (matchPix W H d0 T q ∧ ¬ S q) ∧ q ≠ (x, y) →
            matchPix W H d0 T q ∧ ¬ (S q ∨ q = (x, y)) := by
          rintro q ⟨⟨hMq, hnSq⟩, hneq⟩
          exact ⟨hMq, fun h => h.elim hnSq hneq⟩
        rcases ReachP_remove (x, y) hpath hne with hpath2 | ⟨n, hadj, hpath2⟩
        · have hshead := ReachP_head hpath2
          have hsne : s ≠ (x, y) := hshead.2
          rcases List.mem_cons.mp hs with rfl | hsL
          · exact absurd rfl hsne
          · exact ⟨s, List.mem_append_right _ hsL, ReachP_mono hmono hpath2⟩
        · exact ⟨n, List.mem_append_left _ (mem_neighbors.mpr hadj), ReachP_mono hmono hpath2⟩
      · have hcnt := cntT_update hidx_lt hd (Ne.symm hTfc)
        simp only [List.length_append, List.length_cons, neighbors, List.length_nil]
        omega
    · -- in-bounds pop that does not match: discarded
      simp only [floodStep, if_neg hoob, if_neg hmatch]
      refine ⟨⟨S, h1, h2, h3, ?_, ?_⟩, ?_⟩
      · intro p hp
        exact h5 p (List.mem_cons_of_mem _ hp)
      · intro p hC hnS
        obtain ⟨s, hs, hpath⟩ := h6 p hC hnS
        rcases List.mem_cons.mp hs with rfl | hsL
        · exfalso
          obtain ⟨hMs, hnSs⟩ := ReachP_head hpath
          exact hmatch (by rw [hframe hnSs, hMs.2])
        · exact ⟨s, hsL, hpath⟩
      · simp only [List.length_cons]
        omega

/-! ## Running the loop to completion -/

theorem floodLoop_run {W H : Nat} {d0 : Nat → Pix} {T fc : Pix} {s0 : Int × Int}
    (hTfc : T ≠ fc) :
    ∀ (fuel : Nat) (st : List (Int × Int) × (Nat → Pix)), FFInv W H d0 T fc s0 st →
      5 * cntT W H T st.2 + st.1.length ≤ fuel →
      (floodLoop W H (some T) fc fuel st).1 = [] ∧
        FFInv W H d0 T fc s0 (floodLoop W H (some T) fc fuel st) := by
  intro fuel
  induction fuel with
  | zero =>
    intro st hInv hle
    obtain ⟨L, d⟩ := st
    have hL : L = [] := List.length_eq_zero.mp (by simp only [] at hle; omega)
    subst hL
    exact ⟨rfl, hInv⟩
  | succ n ih =>
    intro st hInv hle
    obtain ⟨L, d⟩ := st
    cases L with
    | nil => exact ⟨rfl, hInv⟩
    | cons p L =>
      obtain ⟨x, y⟩ := p
      obtain ⟨hInv2, hdec⟩ := FFInv_preserved hTfc x y L d hInv
      have hle2 : 5 * cntT W H T (floodStep W H (some T) fc ((x, y) :: L, d)).2 +
          (floodStep W H (some T) fc ((x, y) :: L, d)).1.length ≤ n := by
        simp only [List.length_cons] at hle hdec
        omega
      have hrec := ih (floodStep W H (some T) fc ((x, y) :: L, d)) hInv2 hle2
      simpa only [floodLoop] using hrec

/-- With an empty frontier the invariant forces the final
characterization: every component pixel holds the fill color, and every
index not belonging to a component pixel holds its original value. -/
theorem FFInv_empty {W H : Nat} {d0 : Nat → Pix} {T fc : Pix} {s0 : Int × Int}
    {d : Nat → Pix} (hInv : FFInv W H d0 T fc s0 ([], d)) :
    (∀ p, ReachP (matchPix W H d0 T) s0 p → d (toIdx W p) = fc) ∧
      (∀ i, (∀ p, ReachP (matchPix W H d0 T) s0 p → toIdx W p ≠ i) → d i = d0 i) := by
  obtain ⟨S, h1, h2, h3, _, h6⟩ := hInv
  have hCS : ∀ p, ReachP (matchPix W H d0 T) s0 p → S p := by
    intro p hC
    by_contra hnS
    obtain ⟨s, hs, _⟩ := h6 p hC hnS
    exact absurd hs (List.not_mem_nil s)
  exact ⟨fun p hC => h2 p (hCS p hC),
    fun i hfr => h3 i (fun p hS => hfr p (h1 p hS))⟩

/-- Full characterization of `floodFill` for an in-bounds seed: every
pixel of the 4-connected exact-color component of the seed receives the
fill color (RGB from the hex color, alpha 255), and every image-data
index not underlying a component pixel is unchanged. The right-hand
sides mention only the component — a traversal-order-free description —
so the final buffer does not depend on the visitation order. -/
theorem floodFill_spec (b : Buffer) (sx sy : Int) (fr fg fb : Nat)
    (hin : inBds b.width b.height (sx, sy)) :
    (∀ p, Component b (sx, sy) p →
      (floodFill b sx sy fr fg fb).data (toIdx b.width p) = ⟨fr, fg, fb, fillAlpha⟩) ∧
      (∀ i, (∀ p, Component b (sx, sy) p → toIdx b.width p ≠ i) →
        (floodFill b sx sy fr fg fb).data i = b.data i) := by
  have hread := readPix_at hin
  by_cases hguard : readPix b (sy * b.width + sx) = some ⟨fr, fg, fb, fillAlpha⟩
  · have hT : b.data (toIdx b.width (sx, sy)) = ⟨fr, fg, fb, fillAlpha⟩ := by
      rw [hguard] at hread
      exact (Option.some_injective _ hread).symm
    unfold floodFill
    rw [if_pos hguard]
    refine ⟨fun p hC => ?_, fun i _ => rfl⟩
    have hlast := ReachP_last hC
    rw [hlast.2, hT]
  · unfold floodFill
    rw [if_neg hguard]
    have hTfc : b.data (toIdx b.width (sx, sy)) ≠ ⟨fr, fg, fb, fillAlpha⟩ := by
      intro h
      exact hguard (by rw [hread, h])
    have hInv0 : FFInv b.width b.height b.data (b.data (toIdx b.width (sx, sy)))
        ⟨fr, fg, fb, fillAlpha⟩ (sx, sy) ([(sx, sy)], b.data) := by
      refine ⟨fun _ => False, ?_, ?_, ?_, ?_, ?_⟩
      · intro p hS; exact absurd hS (by simp)
      · intro p hS; exact absurd hS (by simp)
      · intro i _; rfl
      · intro p hp
        rcases List.mem_cons.mp hp with rfl | h
        · exact .inl rfl
        · exact absurd h (List.not_mem_nil p)
      · intro p hC _
        exact ⟨(sx, sy), List.mem_cons_self _ _,
          ReachP_mono (fun q hq => ⟨hq, fun h => h⟩) hC⟩
    have hfuel : 5 * cntT b.width b.height (b.data (toIdx b.width (sx, sy))) b.data +
        ([((sx : Int), (sy : Int))] : List (Int × Int)).length ≤
          5 * (b.width * b.height) + 1 := by
      have := cntT_le (W := b.width) (H := b.height)
        (T := b.data (toIdx b.width (sx, sy))) (d := b.data)
      simp only [List.length_singleton]
      omega
    obtain ⟨hnil, hInvF⟩ := floodLoop_run hTfc (5 * (b.width * b.height) + 1)
      ([(sx, sy)], b.data) hInv0 hfuel
    rw [hread]
    set X := floodLoop b.width b.height (some (b.data (toIdx b.width (sx, sy))))
      ⟨fr, fg, fb, fillAlpha⟩ (5 * (b.width * b.height) + 1) ([(sx, sy)], b.data) with hX
    have hpair : X = ([], X.2) := Prod.ext hnil rfl
    rw [hpair] at hInvF
    have hfinal := FFInv_empty hInvF
    exact ⟨fun p hC => hfinal.1 p hC, fun i hfr => hfinal.2 i hfr⟩

/-! ## Small facts about the loop and the wrapper -/

theorem floodLoop_nil {W H : Nat} {tgt : Option Pix} {fc : Pix} (fuel : Nat) (d : Nat → Pix) :
    floodLoop W H tgt fc fuel ([], d) = ([], d) := by
  cases fuel <;> rfl

theorem floodFill_width (b : Buffer) (sx sy : Int) (fr fg fb : Nat) :
    (floodFill b sx sy fr fg fb).width = b.width := by
  unfold floodFill
  split <;> rfl

theorem floodFill_height (b : Buffer) (sx sy : Int) (fr fg fb : Nat) :
    (floodFill b sx sy fr fg fb).height = b.height := by
  unfold floodFill
  split <;> rfl

theorem floodStep_data_or {W H : Nat} {tgt : Option Pix} {fc : Pix}
    (x y : Int) (L : List (Int × Int)) (d : Nat → Pix) (i : Nat) :
    (floodStep W H tgt fc ((x, y) :: L, d)).2 i = d i ∨
      (floodStep W H tgt fc ((x, y) :: L, d)).2 i = fc := by
  simp only [floodStep]
  split_ifs with h1 h2
  · left; rfl
  · by_cases hij : i = toIdx W (x, y)
    · subst hij
      right
      exact Function.update_same _ _ _
    · left
      exact Function.update_noteq hij _ _
  · left; rfl

theorem floodLoop_data_or {W H : Nat} {tgt : Option Pix} {fc : Pix} :
    ∀ (fuel : Nat) (st : List (Int × Int) × (Nat → Pix)) (i : Nat),
      (floodLoop W H tgt fc fuel st).2 i = st.2 i ∨ (floodLoop W H tgt fc fuel st).2 i = fc := by
  intro fuel
  induction fuel with
  | zero => intro st i; left; rfl
  | succ n ih =>
    intro st i
    obtain ⟨L, d⟩ := st
    cases L with
    | nil => left; rfl
    | cons p L =>
      obtain ⟨x, y⟩ := p
      have hstep := @floodStep_data_or W H tgt fc x y L d i
      have hrec := ih (floodStep W H tgt fc ((x, y) :: L, d)) i
      simp only [floodLoop]
      rcases hrec with h | h
      · rcases hstep with h2 | h2
        · left; rw [h, h2]
        · right; rw [h, h2]
      · right; exact h

/-! ## Claim C1 -/

/-- C1: for every buffer and every in-bounds seed, `floodFill` sets to
the fill color (RGB of `newColor`, alpha 255) exactly the pixels of the
4-connected component — up/down/left/right, no diagonals — of pixels
exactly equal (all four RGBA channels) to the seed pixel's color that
contains the seed, and leaves every other pixel unchanged. Both sides of
the characterization depend only on the component, which is defined
without reference to the traversal, so the final buffer state is
independent of visitation order. -/
theorem floodFill_fills_exactly_component (b : Buffer) (sx sy : Int) (fr fg fb : Nat)
    (hin : inBds b.width b.height (sx, sy)) :
    (∀ p, Component b (sx, sy) p →
      (floodFill b sx sy fr fg fb).data (toIdx b.width p) = ⟨fr, fg, fb, fillAlpha⟩) ∧
      (∀ p, inBds b.width b.height p → ¬ Component b (sx, sy) p →
        (floodFill b sx sy fr fg fb).data (toIdx b.width p) = b.data (toIdx b.width p)) := by
  obtain ⟨hfill, hframe⟩ := floodFill_spec b sx sy fr fg fb hin
  refine ⟨hfill, fun p hp hnC => ?_⟩
  refine hframe _ (fun q hq hEq => ?_)
  have hqin : inBds b.width b.height q := (ReachP_last hq).1
  exact hnC (toIdx_inj hqin hp hEq ▸ hq)

/-- Witness for C1, on a concrete 2×2 buffer whose component of the seed
(0,0) is the three pixels holding (1,2,3,255). -/
theorem floodFill_fills_exactly_component_witness :
    inBds 2 2 ((0 : Int), (0 : Int)) ∧
      (floodFill (mkBuf 2 2 [⟨1, 2, 3, 255⟩, ⟨1, 2, 3, 255⟩, ⟨9, 9, 9, 255⟩, ⟨1, 2, 3, 255⟩])
          0 0 5 6 7).data (toIdx 2 (0, 0)) = ⟨5, 6, 7, fillAlpha⟩ :=
  ⟨by decide,
    (floodFill_fills_exactly_component
        (mkBuf 2 2 [⟨1, 2, 3, 255⟩, ⟨1, 2, 3, 255⟩, ⟨9, 9, 9, 255⟩, ⟨1, 2, 3, 255⟩])
        0 0 5 6 7 (by decide)).1 (0, 0) (ReachP.refl _ ⟨by decide, rfl⟩)⟩

/-! ## Claim C7 -/

/-- C7: `floodFill` is idempotent for an in-bounds seed: a second
application with the same arguments returns its input unchanged, because
after the first fill the seed pixel holds exactly the fill color and the
no-progress guard fires. In particular, if the seed pixel already equals
the fill color (all four channels, alpha 255), the call leaves the
buffer unchanged. -/
theorem floodFill_idempotent (b : Buffer) (sx sy : Int) (fr fg fb : Nat)
    (hin : inBds b.width b.height (sx, sy)) :
    floodFill (floodFill b sx sy fr fg fb) sx sy fr fg fb = floodFill b sx sy fr fg fb ∧
      (b.data (toIdx b.width (sx, sy)) = ⟨fr, fg, fb, fillAlpha⟩ →
        floodFill b sx sy fr fg fb = b) := by
  constructor
  · set out := floodFill b sx sy fr fg fb with hout
    have hw : out.width = b.width := floodFill_width b sx sy fr fg fb
    have hh : out.height = b.height := floodFill_height b sx sy fr fg fb
    have hin2 : inBds out.width out.height (sx, sy) := by rw [hw, hh]; exact hin
    have hseedC : Component b (sx, sy) (sx, sy) := .refl _ ⟨hin, rfl⟩
    have hseedfc : out.data (toIdx b.width (sx, sy)) = ⟨fr, fg, fb, fillAlpha⟩ :=
      (floodFill_spec b sx sy fr fg fb hin).1 _ hseedC
    have hWidx : toIdx out.width (sx, sy) = toIdx b.width (sx, sy) := by rw [hw]
    have hguard : readPix out (sy * out.width + sx) = some ⟨fr, fg, fb, fillAlpha⟩ := by
      rw [readPix_at hin2, hWidx, hseedfc]
    show floodFill out sx sy fr fg fb = out
    unfold floodFill
    rw [if_pos hguard]
  · intro hfc
    have hguard : readPix b (sy * b.width + sx) = some ⟨fr, fg, fb, fillAlpha⟩ := by
      rw [readPix_at hin, hfc]
    unfold floodFill
    rw [if_pos hguard]

/-- Witness for C7 on a concrete 1×1 buffer. -/
theorem floodFill_idempotent_witness :
    inBds 1 1 ((0 : Int), (0 : Int)) ∧
      floodFill (floodFill (mkBuf 1 1 [⟨0, 0, 0, 255⟩]) 0 0 5 6 7) 0 0 5 6 7
        = floodFill (mkBuf 1 1 [⟨0, 0, 0, 255⟩]) 0 0 5 6 7 :=
  ⟨by decide, (floodFill_idempotent (mkBuf 1 1 [⟨0, 0, 0, 255⟩]) 0 0 5 6 7 (by decide)).1⟩

/-! ## Claim C10 -/

/-- C10 (implicit): the fill color always carries alpha 255, so every
pixel `floodFill` changes becomes fully opaque; and filling at a seed
whose RGB already equals the fill RGB but whose alpha is below 255 is
not a no-op — the seed pixel (and with it the exact-RGBA component) has
its alpha raised to 255. -/
theorem floodFill_alpha_saturating (b : Buffer) (sx sy : Int) (fr fg fb : Nat) :
    (∀ i, (floodFill b sx sy fr fg fb).data i ≠ b.data i →
      ((floodFill b sx sy fr fg fb).data i).a = 255) ∧
      (∀ al, inBds b.width b.height (sx, sy) →
        b.data (toIdx b.width (sx, sy)) = ⟨fr, fg, fb, al⟩ → al ≠ 255 →
        (floodFill b sx sy fr fg fb).data (toIdx b.width (sx, sy)) = ⟨fr, fg, fb, 255⟩ ∧
          (floodFill b sx sy fr fg fb).data (toIdx b.width (sx, sy)) ≠
            b.data (toIdx b.width (sx, sy))) := by
  constructor
  · intro i hne
    by_cases hguard : readPix b (sy * b.width + sx) = some ⟨fr, fg, fb, fillAlpha⟩
    · exfalso
      apply hne
      unfold floodFill
      rw [if_pos hguard]
    · rcases @floodLoop_data_or b.width b.height (readPix b (sy * b.width + sx))
          ⟨fr, fg, fb, fillAlpha⟩
          (5 * (b.width * b.height) + 1) ([(sx, sy)], b.data) i with h | h
      · exfalso
        apply hne
        unfold floodFill
        rw [if_neg hguard]
        exact h
      · unfold floodFill
        rw [if_neg hguard]
        show ((floodLoop b.width b.height (readPix b (sy * b.width + sx))
          ⟨fr, fg, fb, fillAlpha⟩ (5 * (b.width * b.height) + 1)
          ([(sx, sy)], b.data)).2 i).a = 255
        rw [h]
        rfl
  · intro al hin hseed hal
    have hseedC : Component b (sx, sy) (sx, sy) := .refl _ ⟨hin, rfl⟩
    have hfc : (floodFill b sx sy fr fg fb).data (toIdx b.width (sx, sy))
        = ⟨fr, fg, fb, fillAlpha⟩ := (floodFill_spec b sx sy fr fg fb hin).1 _ hseedC
    refine ⟨hfc, ?_⟩
    rw [hfc, hseed]
    intro h
    have := (Pix.mk.injEq _ _ _ _ _ _ _ _).mp h
    exact hal this.2.2.2.symm

/-- Witness for C10: a 1×1 buffer whose pixel has the fill RGB (7,8,9)
but alpha 100; the fill raises the alpha to 255. -/
theorem floodFill_alpha_saturating_witness :
    (inBds 1 1 ((0 : Int), (0 : Int)) ∧
        (mkBuf 1 1 [⟨7, 8, 9, 100⟩]).data (toIdx 1 (0, 0)) = ⟨7, 8, 9, 100⟩ ∧ (100 : Nat) ≠ 255) ∧
      (floodFill (mkBuf 1 1 [⟨7, 8, 9, 100⟩]) 0 0 7 8 9).data (toIdx 1 (0, 0)) = ⟨7, 8, 9, 255⟩ ∧
        (floodFill (mkBuf 1 1 [⟨7, 8, 9, 100⟩]) 0 0 7 8 9).data (toIdx 1 (0, 0)) ≠
          (mkBuf 1 1 [⟨7, 8, 9, 100⟩]).data (toIdx 1 (0, 0)) :=
  ⟨⟨by decide, by decide, by decide⟩,
    (floodFill_alpha_saturating (mkBuf 1 1 [⟨7, 8, 9, 100⟩]) 0 0 7 8 9).2 100
      (by decide) (by decide) (by decide)⟩

/-! ## Unfolding equations for removeColor -/

theorem removeColor_eq_of_none {b : Buffer} {sx sy : Int}
    (h : readPix b (sy * b.width + sx) = none) : removeColor b sx sy = b := by
  unfold removeColor
  rw [h]

theorem removeColor_eq_of_some {b : Buffer} {sx sy : Int} {t : Pix}
    (h : readPix b (sy * b.width + sx) = some t) :
    removeColor b sx sy =
      if t.a = 0 then b
      else { b with data := fun i => if i < b.width * b.height then maskPix t (b.data i) else b.data i } := by
  unfold removeColor
  rw [h]

/-! ## Claim C2 -/

/-- C2: for an in-bounds seed with nonzero alpha, `removeColor` sets
alpha to 0 for exactly those pixels of the entire buffer (no
connectivity involved) whose RGB differs from the seed's RGB by at most
15 in each channel (absolute difference) and whose alpha is nonzero; all
other pixels are unchanged. The witness exhibits the boundary: against
seed (100,100,100), (114,100,100) is masked (delta 14) and (116,100,100)
is not (delta 16). -/
theorem removeColor_masks_within_tolerance (b : Buffer) (sx sy : Int)
    (hin : inBds b.width b.height (sx, sy))
    (ha : (b.data (toIdx b.width (sx, sy))).a ≠ 0) :
    (∀ i, i < b.width * b.height →
      (((b.data i).r : Int) - ((b.data (toIdx b.width (sx, sy))).r : Int)).natAbs ≤ 15 →
      (((b.data i).g : Int) - ((b.data (toIdx b.width (sx, sy))).g : Int)).natAbs ≤ 15 →
      (((b.data i).b : Int) - ((b.data (toIdx b.width (sx, sy))).b : Int)).natAbs ≤ 15 →
      (b.data i).a ≠ 0 →
      (removeColor b sx sy).data i = { b.data i with a := 0 }) ∧
      (∀ i, i < b.width * b.height →
        ¬ ((((b.data i).r : Int) - ((b.data (toIdx b.width (sx, sy))).r : Int)).natAbs ≤ 15 ∧
            (((b.data i).g : Int) - ((b.data (toIdx b.width (sx, sy))).g : Int)).natAbs ≤ 15 ∧
            (((b.data i).b : Int) - ((b.data (toIdx b.width (sx, sy))).b : Int)).natAbs ≤ 15 ∧
            (b.data i).a ≠ 0) →
        (removeColor b sx sy).data i = b.data i) := by
  have hrc := removeColor_eq_of_some (readPix_at hin)
  rw [if_neg ha] at hrc
  constructor
  · intro i hi hr hg hb2 ha2
    rw [hrc]
    show (if i < b.width * b.height then maskPix (b.data (toIdx b.width (sx, sy))) (b.data i) else b.data i) = _
    rw [if_pos hi]
    unfold maskPix
    rw [if_pos ⟨hr, hg, hb2, Nat.pos_of_ne_zero ha2⟩]
  · intro i hi hnc
    rw [hrc]
    show (if i < b.width * b.height then maskPix (b.data (toIdx b.width (sx, sy))) (b.data i) else b.data i) = _
    rw [if_pos hi]
    unfold maskPix
    rw [if_neg]
    intro hc
    exact hnc ⟨hc.1, hc.2.1, hc.2.2.1, Nat.pos_iff_ne_zero.mp hc.2.2.2⟩

/-- Witness for C2 on a 3×1 buffer: seed (100,100,100,255), the pixel
(114,100,100,255) is masked, the pixel (116,100,100,255) is not. -/
theorem removeColor_masks_within_tolerance_witness :
    (inBds 3 1 ((0 : Int), (0 : Int)) ∧
        ((mkBuf 3 1 [⟨100, 100, 100, 255⟩, ⟨114, 100, 100, 255⟩, ⟨116, 100, 100, 255⟩]).data
            (toIdx 3 (0, 0))).a ≠ 0) ∧
      (removeColor (mkBuf 3 1 [⟨100, 100, 100, 255⟩, ⟨114, 100, 100, 255⟩, ⟨116, 100, 100, 255⟩])
          0 0).data 1 = ⟨114, 100, 100, 0⟩ ∧
      (removeColor (mkBuf 3 1 [⟨100, 100, 100, 255⟩, ⟨114, 100, 100, 255⟩, ⟨116, 100, 100, 255⟩])
          0 0).data 2 = ⟨116, 100, 100, 255⟩ :=
  ⟨⟨by decide, by decide⟩,
    (removeColor_masks_within_tolerance
        (mkBuf 3 1 [⟨100, 100, 100, 255⟩, ⟨114, 100, 100, 255⟩, ⟨116, 100, 100, 255⟩]) 0 0
        (by decide) (by decide)).1 1 (by decide) (by decide) (by decide) (by decide) (by decide),
    (removeColor_masks_within_tolerance
        (mkBuf 3 1 [⟨100, 100, 100, 255⟩, ⟨114, 100, 100, 255⟩, ⟨116, 100, 100, 255⟩]) 0 0
        (by decide) (by decide)).2 2 (by decide) (by decide)⟩

/-! ## Claim C8 -/

/-- C8: `removeColor` never changes any R, G or B channel, never changes
a pixel whose alpha is already 0, and is a complete no-op when the seed
pixel's alpha is 0. -/
theorem removeColor_frame (b : Buffer) (sx sy : Int) :
    (∀ i, ((removeColor b sx sy).data i).r = (b.data i).r ∧
        ((removeColor b sx sy).data i).g = (b.data i).g ∧
        ((removeColor b sx sy).data i).b = (b.data i).b) ∧
      (∀ i, (b.data i).a = 0 → (removeColor b sx sy).data i = b.data i) ∧
      (inBds b.width b.height (sx, sy) → (b.data (toIdx b.width (sx, sy))).a = 0 →
        removeColor b sx sy = b) := by
  cases hread : readPix b (sy * b.width + sx) with
  | none =>
    rw [removeColor_eq_of_none hread]
    exact ⟨fun i => ⟨rfl, rfl, rfl⟩, fun i _ => rfl, fun _ _ => rfl⟩
  | some t =>
    by_cases hta : t.a = 0
    · rw [removeColor_eq_of_some hread, if_pos hta]
      exact ⟨fun i => ⟨rfl, rfl, rfl⟩, fun i _ => rfl, fun _ _ => rfl⟩
    · rw [removeColor_eq_of_some hread, if_neg hta]
      refine ⟨?_, ?_, ?_⟩
      · intro i
        show (if i < b.width * b.height then maskPix t (b.data i) else b.data i).r
            = (b.data i).r ∧
          (if i < b.width * b.height then maskPix t (b.data i) else b.data i).g
            = (b.data i).g ∧
          (if i < b.width * b.height then maskPix t (b.data i) else b.data i).b
            = (b.data i).b
        unfold maskPix
        split_ifs <;> exact ⟨rfl, rfl, rfl⟩
      · intro i h0
        show (if i < b.width * b.height then maskPix t (b.data i) else b.data i) = b.data i
        unfold maskPix
        rw [h0]
        split_ifs with h1 h2
        · exact absurd h2.2.2.2 (by omega)
        · rfl
        · rfl
      · intro hin h0
        exfalso
        have h2 := hread
        rw [readPix_at hin] at h2
        have h3 := Option.some_injective _ h2
        rw [h3] at h0
        exact hta h0

/-- Witness for C8: a seed whose alpha is 0 makes the call a no-op. -/
theorem removeColor_frame_witness :
    (inBds 1 1 ((0 : Int), (0 : Int)) ∧
        ((mkBuf 1 1 [⟨1, 2, 3, 0⟩]).data (toIdx 1 (0, 0))).a = 0) ∧
      removeColor (mkBuf 1 1 [⟨1, 2, 3, 0⟩]) 0 0 = mkBuf 1 1 [⟨1, 2, 3, 0⟩] :=
  ⟨⟨by decide, by decide⟩,
    (removeColor_frame (mkBuf 1 1 [⟨1, 2, 3, 0⟩]) 0 0).2.2 (by decide) (by decide)⟩

/-! ## Claim C5 (corrected) -/

/-- Counterexample to C5 as stated: with the out-of-bounds seed (2,0) on
a 2×2 buffer, `removeColor` does NOT leave the buffer unchanged (and no
error of any kind is raised — the operations have no failure channel):
the source computes `targetIndex = (0·2+2)·4`, which lands on the
in-range pixel (0,1) = (200,0,0,255), and then masks that pixel's alpha
to 0. -/
theorem outOfBounds_not_error_counterexample :
    ¬ inBds 2 2 ((2 : Int), (0 : Int)) ∧
      ((removeColor (mkBuf 2 2 [⟨10, 10, 10, 255⟩, ⟨10, 10, 10, 255⟩, ⟨200, 0, 0, 255⟩,
          ⟨10, 10, 10, 255⟩]) 2 0).data 2).a = 0 ∧
      ((mkBuf 2 2 [⟨10, 10, 10, 255⟩, ⟨10, 10, 10, 255⟩, ⟨200, 0, 0, 255⟩,
          ⟨10, 10, 10, 255⟩]).data 2).a = 255 := by
  exact ⟨by decide, by decide, by decide⟩

/-- C5 amended: neither operation raises any error on an out-of-bounds
seed (they have no failure channel at all). `floodFill` always leaves
the buffer unchanged — the popped seed fails the loop's bounds check —
and `removeColor` leaves the buffer unchanged whenever the flattened
index `startY·width + startX` falls outside the data array; when that
flattened index wraps into range (e.g. `startX = width`, `startY <
height-1`), `removeColor` can mutate the buffer, as the counterexample
shows. -/
theorem outOfBounds_silent_noop (b : Buffer) (sx sy : Int) (fr fg fb : Nat) :
    (¬ inBds b.width b.height (sx, sy) → floodFill b sx sy fr fg fb = b) ∧
      (¬ (0 ≤ sy * b.width + sx ∧ sy * b.width + sx < ((b.width * b.height : Nat) : Int)) →
        removeColor b sx sy = b) := by
  constructor
  · intro hoob
    unfold floodFill
    split
    · rfl
    · have hcond : sx < 0 ∨ (b.width : Int) ≤ sx ∨ sy < 0 ∨ (b.height : Int) ≤ sy := by
        by_contra h
        push_neg at h
        exact hoob ⟨h.1, h.2.1, h.2.2.1, h.2.2.2⟩
      have hstep : floodStep b.width b.height (readPix b (sy * b.width + sx))
          ⟨fr, fg, fb, fillAlpha⟩ ([(sx, sy)], b.data) = ([], b.data) := by
        simp only [floodStep, if_pos hcond]
      have hloop : floodLoop b.width b.height (readPix b (sy * b.width + sx))
          ⟨fr, fg, fb, fillAlpha⟩ (5 * (b.width * b.height) + 1)
          ([(sx, sy)], b.data) = ([], b.data) := by
        simp only [floodLoop]
        rw [hstep]
        exact floodLoop_nil _ _
      rw [hloop]
  · intro h
    have hnone : readPix b (sy * b.width + sx) = none := by
      unfold readPix
      rw [if_neg h]
    exact removeColor_eq_of_none hnone

/-- Witness for the amended C5: out-of-bounds seed (5,5) on a 1×1 buffer,
where the flattened index 10 is also out of range. -/
theorem outOfBounds_silent_noop_witness :
    (¬ inBds 1 1 ((5 : Int), (5 : Int)) ∧
        ¬ (0 ≤ (5 : Int) * (1 : Nat) + 5 ∧
            (5 : Int) * (1 : Nat) + 5 < ((1 * 1 : Nat) : Int))) ∧
      floodFill (mkBuf 1 1 [⟨1, 2, 3, 255⟩]) 5 5 9 9 9 = mkBuf 1 1 [⟨1, 2, 3, 255⟩] ∧
      removeColor (mkBuf 1 1 [⟨1, 2, 3, 255⟩]) 5 5 = mkBuf 1 1 [⟨1, 2, 3, 255⟩] :=
  ⟨⟨by decide, by decide⟩,
    (outOfBounds_silent_noop (mkBuf 1 1 [⟨1, 2, 3, 255⟩]) 5 5 9 9 9).1 (by decide),
    (outOfBounds_silent_noop (mkBuf 1 1 [⟨1, 2, 3, 255⟩]) 5 5 9 9 9).2 (by decide)⟩

/-! ## Claim C9 (corrected) -/

/-- Counterexample to C9 as stated: out-of-bounds coordinates ARE pushed
onto the frontier stack. Filling the single pixel of a 1×1 buffer pushes
all four of its neighbors, and the resulting stack — the state after the
first iteration of `floodFill`'s loop, started from the initial stack
`[[startX, startY]]` — contains the out-of-bounds coordinate (0,−1). -/
theorem oob_enqueued_counterexample :
    ((0 : Int), (-1 : Int)) ∈
        (floodStep 1 1 (readPix (mkBuf 1 1 [⟨1, 1, 1, 255⟩]) (0 * 1 + 0)) ⟨5, 5, 5, fillAlpha⟩
          ([(0, 0)], (mkBuf 1 1 [⟨1, 1, 1, 255⟩]).data)).1 ∧
      ¬ inBds 1 1 ((0 : Int), (-1 : Int)) := by
  exact ⟨by decide, by decide⟩

/-- C9 amended: out-of-bounds coordinates can be enqueued, but they are
never visited: a popped out-of-bounds coordinate is discarded by the
loop's bounds check with no read and no write, and every write performed
by a loop iteration is at the linear index of an in-bounds coordinate
(the head of the stack at that iteration). -/
theorem oob_never_visited (W H : Nat) (tgt : Option Pix) (fc : Pix) :
    (∀ (x y : Int) (L : List (Int × Int)) (d : Nat → Pix),
      (x < 0 ∨ (W : Int) ≤ x ∨ y < 0 ∨ (H : Int) ≤ y) →
      floodStep W H tgt fc ((x, y) :: L, d) = (L, d)) ∧
      (∀ (st : List (Int × Int) × (Nat → Pix)) (i : Nat),
        (floodStep W H tgt fc st).2 i ≠ st.2 i →
        ∃ x y, inBds W H (x, y) ∧ i = toIdx W (x, y) ∧ st.1.head? = some (x, y)) := by
  constructor
  · intro x y L d h
    simp only [floodStep, if_pos h]
  · intro st i hne
    obtain ⟨L, d⟩ := st
    cases L with
    | nil => exact absurd rfl hne
    | cons p L =>
      obtain ⟨x, y⟩ := p
      simp only [floodStep] at hne
      by_cases hoob : x < 0 ∨ (W : Int) ≤ x ∨ y < 0 ∨ (H : Int) ≤ y
      · rw [if_pos hoob] at hne
        exact absurd rfl hne
      · rw [if_neg hoob] at hne
        push_neg at hoob
        have hinb : inBds W H (x, y) := ⟨hoob.1, hoob.2.1, hoob.2.2.1, hoob.2.2.2⟩
        by_cases hm : some (d (toIdx W (x, y))) = tgt
        · rw [if_pos hm] at hne
          by_cases hij : i = toIdx W (x, y)
          · exact ⟨x, y, hinb, hij, rfl⟩
          · exact absurd (Function.update_noteq hij _ _) hne
        · rw [if_neg hm] at hne
          exact absurd rfl hne

/-- Witness for the amended C9: the first iteration on a 1×1 buffer fills
index 0, the linear index of the in-bounds popped coordinate (0,0). -/
theorem oob_never_visited_witness :
    ((floodStep 1 1 (some ⟨1, 1, 1, 255⟩) ⟨5, 5, 5, 255⟩
          ([(0, 0)], (mkBuf 1 1 [⟨1, 1, 1, 255⟩]).data)).2 0 ≠
        (mkBuf 1 1 [⟨1, 1, 1, 255⟩]).data 0) ∧
      ∃ x y, inBds 1 1 (x, y) ∧ 0 = toIdx 1 (x, y) ∧
        (([((0 : Int), (0 : Int))] : List (Int × Int)).head? = some (x, y)) :=
  ⟨by decide,
    (oob_never_visited 1 1 (some ⟨1, 1, 1, 255⟩) ⟨5, 5, 5, 255⟩).2
      ([(0, 0)], (mkBuf 1 1 [⟨1, 1, 1, 255⟩]).data) 0 (by decide)⟩

/-! ## Claim C6 (corrected) -/

/-- Counterexample to C6 as stated: assembling zero images does not fail
with any error — the source returns silently before touching anything
(`if (sheetImages.length === 0) return;`), producing neither a buffer
nor an error message. -/
theorem assemble_empty_counterexample :
    handleAssembleSheet [] 1 0 HAlign.left VAlign.top = AsmResult.silentNoop ∧
      ¬ (∃ msg, handleAssembleSheet [] 1 0 HAlign.left VAlign.top = AsmResult.err msg) ∧
      ¬ (∃ out, handleAssembleSheet [] 1 0 HAlign.left VAlign.top = AsmResult.ok out) := by
  refine ⟨rfl, ?_, ?_⟩
  · rintro ⟨msg, h⟩
    exact AsmResult.noConfusion h
  · rintro ⟨out, h⟩
    exact AsmResult.noConfusion h

/-- C6 amended: with zero images, assembly silently does nothing — it
returns no buffer and reports no error, for every layout. -/
theorem assemble_empty_silent (cols spacing : Nat) (hA : HAlign) (vA : VAlign) :
    handleAssembleSheet [] cols spacing hA vA = AsmResult.silentNoop := rfl

/-! ## Facts about the fold by max and about ceiling division -/

theorem foldl_max_facts : ∀ (l : List Nat) (a : Nat),
    a ≤ l.foldl max a ∧ (l.foldl max a = a ∨ l.foldl max a ∈ l) ∧
      ∀ y ∈ l, y ≤ l.foldl max a := by
  intro l
  induction l with
  | nil =>
    intro a
    refine ⟨le_refl a, .inl rfl, ?_⟩
    intro y hy
    exact absurd hy (List.not_mem_nil y)
  | cons c t ih =>
    intro a
    obtain ⟨h1, h2, h3⟩ := ih (max a c)
    simp only [List.foldl_cons]
    refine ⟨le_trans (le_max_left a c) h1, ?_, ?_⟩
    · rcases h2 with h | h
      · rcases max_choice a c with hm | hm
        · exact .inl (by rw [h, hm])
        · exact .inr (by rw [h, hm]; exact List.mem_cons_self c t)
      · exact .inr (List.mem_cons_of_mem c h)
    · intro y hy
      rcases List.mem_cons.mp hy with rfl | hyt
      · exact le_trans (le_max_right a y) h1
      · exact h3 y hyt

theorem foldl_max_attained (l : List Nat) (hne : l ≠ []) :
    ∃ x ∈ l, l.foldl max 0 = x ∧ ∀ y ∈ l, y ≤ l.foldl max 0 := by
  obtain ⟨_, h2, h3⟩ := foldl_max_facts l 0
  rcases h2 with h | h
  · cases l with
    | nil => exact absurd rfl hne
    | cons c t =>
      have hc : c ≤ 0 := h ▸ h3 c (List.mem_cons_self c t)
      exact ⟨c, List.mem_cons_self c t, by omega, h3⟩
  · exact ⟨_, h, rfl, h3⟩

theorem ceil_div_spec (n c : Nat) (hc : 1 ≤ c) :
    n ≤ ((n + c - 1) / c) * c ∧ ((n + c - 1) / c) * c < n + c := by
  have e := Nat.div_add_mod (n + c - 1) c
  have hr : (n + c - 1) % c < c := Nat.mod_lt _ (by omega)
  obtain ⟨P, hP⟩ : ∃ P, c * ((n + c - 1) / c) = P := ⟨_, rfl⟩
  obtain ⟨m, hm⟩ : ∃ m, (n + c - 1) % c = m := ⟨_, rfl⟩
  rw [hP, hm] at e
  rw [hm] at hr
  have hPc : ((n + c - 1) / c) * c = P := by rw [Nat.mul_comm]; exact hP
  rw [hPc]
  omega

/-- Unfolding equation for a non-empty assembly. -/
theorem handleAssembleSheet_eq (imgs : List Buffer) (cols spacing : Nat)
    (hA : HAlign) (vA : VAlign) (hne : imgs.length ≠ 0) :
    handleAssembleSheet imgs cols spacing hA vA = AsmResult.ok
      { width := if imgs.length = 1 then maxWidthOf imgs
          else cols * maxWidthOf imgs + (cols - 1) * spacing,
        height := if imgs.length = 1 then maxHeightOf imgs
          else ((imgs.length + cols - 1) / cols) * maxHeightOf imgs +
            (((imgs.length + cols - 1) / cols) - 1) * spacing,
        data := drawAll
          (if imgs.length = 1 then maxWidthOf imgs
            else cols * maxWidthOf imgs + (cols - 1) * spacing)
          (maxWidthOf imgs) (maxHeightOf imgs) cols spacing hA vA imgs 0
          (fun _ => transparent) } := by
  unfold handleAssembleSheet
  rw [if_neg hne]

/-! ## Claim C3 -/

/-- C3: for a non-empty sequence of N images and columns ≥ 1, assembly
returns a canvas of width `cols·cellW + (cols−1)·spacing` and height
`rows·cellH + (rows−1)·spacing`, where `cellW`/`cellH` are the maximum
input width/height (upper bound that is attained) and `rows` is the
least number with `N ≤ rows·cols` (that is, ceil(N/cols), characterized
by `N ≤ rows·cols < N + cols`) — except that a single image yields
exactly a `cellW × cellH` canvas with no spacing. -/
theorem assemble_dimensions (imgs : List Buffer) (cols spacing : Nat)
    (hA : HAlign) (vA : VAlign) (hcols : 1 ≤ cols) (hne : imgs ≠ []) :
    ∃ out, handleAssembleSheet imgs cols spacing hA vA = AsmResult.ok out ∧
      ∃ cellW cellH rows,
        (∀ bb ∈ imgs, bb.width ≤ cellW) ∧ (∃ bb ∈ imgs, bb.width = cellW) ∧
        (∀ bb ∈ imgs, bb.height ≤ cellH) ∧ (∃ bb ∈ imgs, bb.height = cellH) ∧
        imgs.length ≤ rows * cols ∧ rows * cols < imgs.length + cols ∧
        (imgs.length = 1 → out.width = cellW ∧ out.height = cellH) ∧
        (imgs.length ≠ 1 →
          out.width = cols * cellW + (cols - 1) * spacing ∧
          out.height = rows * cellH + (rows - 1) * spacing) := by
  have hlen : imgs.length ≠ 0 := fun h => hne (List.length_eq_zero.mp h)
  refine ⟨_, handleAssembleSheet_eq imgs cols spacing hA vA hlen,
    maxWidthOf imgs, maxHeightOf imgs, (imgs.length + cols - 1) / cols, ?_, ?_, ?_, ?_, ?_, ?_, ?_, ?_⟩
  · intro bb hbb
    exact (foldl_max_facts (imgs.map Buffer.width) 0).2.2 _ (List.mem_map_of_mem _ hbb)
  · obtain ⟨x, hxmem, hxeq, _⟩ := foldl_max_attained (imgs.map Buffer.width)
      (by simpa using hne)
    obtain ⟨bb, hbb, hbbx⟩ := List.mem_map.mp hxmem
    exact ⟨bb, hbb, by rw [hbbx]; exact hxeq.symm⟩
  · intro bb hbb
    exact (foldl_max_facts (imgs.map Buffer.height) 0).2.2 _ (List.mem_map_of_mem _ hbb)
  · obtain ⟨x, hxmem, hxeq, _⟩ := foldl_max_attained (imgs.map Buffer.height)
      (by simpa using hne)
    obtain ⟨bb, hbb, hbbx⟩ := List.mem_map.mp hxmem
    exact ⟨bb, hbb, by rw [hbbx]; exact hxeq.symm⟩
  · exact (ceil_div_spec imgs.length cols hcols).1
  · exact (ceil_div_spec imgs.length cols hcols).2
  · intro h1
    constructor
    · show (if imgs.length = 1 then maxWidthOf imgs else _) = maxWidthOf imgs
      rw [if_pos h1]
    · show (if imgs.length = 1 then maxHeightOf imgs else _) = maxHeightOf imgs
      rw [if_pos h1]
  · intro h1
    constructor
    · show (if imgs.length = 1 then maxWidthOf imgs else _) = _
      rw [if_neg h1]
    · show (if imgs.length = 1 then maxHeightOf imgs else _) = _
      rw [if_neg h1]

/-- Witness for C3: the spec's own instance — five images of sizes up to
16×16 at columns 3, spacing 2 — and, via a second application, the
single-image instance. -/
theorem assemble_dimensions_witness :
    ((1 : Nat) ≤ 3 ∧
        ([mkBuf 16 16 [], mkBuf 8 8 [], mkBuf 16 16 [], mkBuf 8 8 [], mkBuf 16 16 []] :
          List Buffer) ≠ []) ∧
      ∃ out, handleAssembleSheet
          [mkBuf 16 16 [], mkBuf 8 8 [], mkBuf 16 16 [], mkBuf 8 8 [], mkBuf 16 16 []]
          3 2 HAlign.left VAlign.top = AsmResult.ok out ∧
        ∃ cellW cellH rows,
          (∀ bb ∈ [mkBuf 16 16 [], mkBuf 8 8 [], mkBuf 16 16 [], mkBuf 8 8 [], mkBuf 16 16 []],
            bb.width ≤ cellW) ∧
          (∃ bb ∈ [mkBuf 16 16 [], mkBuf 8 8 [], mkBuf 16 16 [], mkBuf 8 8 [], mkBuf 16 16 []],
            bb.width = cellW) ∧
          (∀ bb ∈ [mkBuf 16 16 [], mkBuf 8 8 [], mkBuf 16 16 [], mkBuf 8 8 [], mkBuf 16 16 []],
            bb.height ≤ cellH) ∧
          (∃ bb ∈ [mkBuf 16 16 [], mkBuf 8 8 [], mkBuf 16 16 [], mkBuf 8 8 [], mkBuf 16 16 []],
            bb.height = cellH) ∧
          (5 : Nat) ≤ rows * 3 ∧ rows * 3 < 5 + 3 ∧
          ((5 : Nat) = 1 → out.width = cellW ∧ out.height = cellH) ∧
          ((5 : Nat) ≠ 1 →
            out.width = 3 * cellW + (3 - 1) * 2 ∧ out.height = rows * cellH + (rows - 1) * 2) :=
  ⟨⟨by decide, List.cons_ne_nil _ _⟩,
    assemble_dimensions
      [mkBuf 16 16 [], mkBuf 8 8 [], mkBuf 16 16 [], mkBuf 8 8 [], mkBuf 16 16 []]
      3 2 HAlign.left VAlign.top (by decide) (List.cons_ne_nil _ _)⟩

/-! ## Placement geometry -/

theorem blit_apply (dstW : Nat) (img : Buffer) (ox oy : Nat) (d : Nat → Pix)
    (px py : Nat) (hpx : px < dstW) :
    blit dstW img ox oy d (py * dstW + px) =
      if ox ≤ px ∧ px < ox + img.width ∧ oy ≤ py ∧ py < oy + img.height then
        img.data ((py - oy) * img.width + (px - ox))
      else d (py * dstW + px) := by
  unfold blit
  have hmod : (py * dstW + px) % dstW = px := by
    rw [Nat.mul_comm py dstW, Nat.mul_add_mod]
    exact Nat.mod_eq_of_lt hpx
  have hdiv : (py * dstW + px) / dstW = py := by
    rw [Nat.mul_comm py dstW, Nat.mul_add_div (by omega)]
    rw [Nat.div_eq_of_lt hpx]
    rfl
  rw [hmod, hdiv]

theorem xOffsetOf_add_le (hA : HAlign) {maxW w : Nat} (hw : w ≤ maxW) :
    xOffsetOf hA maxW w + w ≤ maxW := by
  cases hA with
  | left => simpa [xOffsetOf] using hw
  | center =>
    show (maxW - w) / 2 + w ≤ maxW
    have := Nat.div_le_self (maxW - w) 2
    omega
  | right =>
    show maxW - w + w ≤ maxW
    omega

theorem yOffsetOf_add_le (vA : VAlign) {maxH h : Nat} (hh : h ≤ maxH) :
    yOffsetOf vA maxH h + h ≤ maxH := by
  cases vA with
  | top => simpa [yOffsetOf] using hh
  | center =>
    show (maxH - h) / 2 + h ≤ maxH
    have := Nat.div_le_self (maxH - h) 2
    omega
  | bottom =>
    show maxH - h + h ≤ maxH
    omega

theorem pitch_disjoint {p maxW c1 c2 : Nat} (h : c1 < c2) :
    c1 * (maxW + p) + maxW ≤ c2 * (maxW + p) := by
  have h2 := Nat.mul_le_mul_right (maxW + p) (show c1 + 1 ≤ c2 from h)
  obtain ⟨A, hA2⟩ : ∃ A, c1 * (maxW + p) = A := ⟨_, rfl⟩
  obtain ⟨B, hB⟩ : ∃ B, c2 * (maxW + p) = B := ⟨_, rfl⟩
  rw [Nat.succ_mul, hA2, hB] at h2
  rw [hA2, hB]
  omega

theorem fit_bound {cols maxW spacing : Nat} (hcols : 1 ≤ cols) (j : Nat) :
    (j % cols) * (maxW + spacing) + maxW ≤ cols * maxW + (cols - 1) * spacing := by
  have hmod : j % cols ≤ cols - 1 := by
    have := Nat.mod_lt j (show 0 < cols by omega)
    omega
  have h1 : (j % cols) * (maxW + spacing) ≤ (cols - 1) * (maxW + spacing) :=
    Nat.mul_le_mul_right _ hmod
  have h2 : (cols - 1) * (maxW + spacing) = (cols - 1) * maxW + (cols - 1) * spacing :=
    Nat.mul_add _ _ _
  have h3 : (cols - 1) * maxW + maxW = cols * maxW := by
    obtain ⟨cp, hcp⟩ : ∃ cp, cols = cp + 1 := ⟨cols - 1, by omega⟩
    subst hcp
    rw [Nat.add_sub_cancel, Nat.succ_mul]
  obtain ⟨A, hA2⟩ : ∃ A, (j % cols) * (maxW + spacing) = A := ⟨_, rfl⟩
  obtain ⟨B, hB⟩ : ∃ B, (cols - 1) * (maxW + spacing) = B := ⟨_, rfl⟩
  obtain ⟨C, hC⟩ : ∃ C, (cols - 1) * maxW = C := ⟨_, rfl⟩
  obtain ⟨D, hD⟩ : ∃ D, (cols - 1) * spacing = D := ⟨_, rfl⟩
  obtain ⟨E, hE⟩ : ∃ E, cols * maxW = E := ⟨_, rfl⟩
  rw [hA2, hB] at h1
  rw [hB, hC, hD] at h2
  rw [hC, hE] at h3
  rw [hA2, hE, hD]
  omega

/-- Two distinct draw indices occupy disjoint rectangles: a pixel in the
interior of image `i`'s rectangle is not covered by image `j`'s. -/
theorem covers_disjoint (cols maxW maxH spacing : Nat) (hA : HAlign) (vA : VAlign)
    (i j : Nat) (hij : i ≠ j)
    (imgI imgJ : Buffer) (hWI : imgI.width ≤ maxW) (hHI : imgI.height ≤ maxH)
    (hWJ : imgJ.width ≤ maxW) (hHJ : imgJ.height ≤ maxH)
    (u v : Nat) (hu : u < imgI.width) (hv : v < imgI.height) :
    ¬ (drawX cols maxW spacing hA j imgJ ≤ drawX cols maxW spacing hA i imgI + u ∧
        drawX cols maxW spacing hA i imgI + u < drawX cols maxW spacing hA j imgJ + imgJ.width ∧
        drawY cols maxH spacing vA j imgJ ≤ drawY cols maxH spacing vA i imgI + v ∧
        drawY cols maxH spacing vA i imgI + v < drawY cols maxH spacing vA j imgJ + imgJ.height) := by
  rintro ⟨c1, c2, c3, c4⟩
  have hxI := xOffsetOf_add_le hA hWI
  have hxJ := xOffsetOf_add_le hA hWJ
  have hyI := yOffsetOf_add_le vA hHI
  have hyJ := yOffsetOf_add_le vA hHJ
  have hcases : i % cols ≠ j % cols ∨ i / cols ≠ j / cols := by
    by_contra h
    push_neg at h
    obtain ⟨h1, h2⟩ := h
    apply hij
    have di := Nat.div_add_mod i cols
    have dj := Nat.div_add_mod j cols
    rw [← h1, ← h2] at dj
    omega
  unfold drawX at c1 c2
  unfold drawY at c3 c4
  rcases hcases with hx | hy
  · obtain ⟨Ai, hAi⟩ : ∃ A, (i % cols) * (maxW + spacing) = A := ⟨_, rfl⟩
    obtain ⟨Aj, hAj⟩ : ∃ A, (j % cols) * (maxW + spacing) = A := ⟨_, rfl⟩
    rw [hAi, hAj] at c1 c2
    rcases Nat.lt_or_gt_of_ne hx with hlt | hgt
    · have hd := @pitch_disjoint spacing maxW _ _ hlt
      rw [hAi, hAj] at hd
      omega
    · have hd := @pitch_disjoint spacing maxW _ _ hgt
      rw [hAi, hAj] at hd
      omega
  · obtain ⟨Bi, hBi⟩ : ∃ B, (i / cols) * (maxH + spacing) = B := ⟨_, rfl⟩
    obtain ⟨Bj, hBj⟩ : ∃ B, (j / cols) * (maxH + spacing) = B := ⟨_, rfl⟩
    rw [hBi, hBj] at c3 c4
    rcases Nat.lt_or_gt_of_ne hy with hlt | hgt
    · have hd := @pitch_disjoint spacing maxH _ _ hlt
      rw [hBi, hBj] at hd
      omega
    · have hd := @pitch_disjoint spacing maxH _ _ hgt
      rw [hBi, hBj] at hd
      omega

/-- A pixel covered by none of the remaining draws keeps its value. -/
theorem drawAll_frame (canvasW maxW maxH cols spacing : Nat) (hA : HAlign) (vA : VAlign)
    (px py : Nat) (hpx : px < canvasW) :
    ∀ (L : List Buffer) (i0 : Nat) (d : Nat → Pix),
      (∀ k, (hk : k < L.length) →
        ¬ (drawX cols maxW spacing hA (i0 + k) (L.get ⟨k, hk⟩) ≤ px ∧
            px < drawX cols maxW spacing hA (i0 + k) (L.get ⟨k, hk⟩) + (L.get ⟨k, hk⟩).width ∧
            drawY cols maxH spacing vA (i0 + k) (L.get ⟨k, hk⟩) ≤ py ∧
            py < drawY cols maxH spacing vA (i0 + k) (L.get ⟨k, hk⟩) + (L.get ⟨k, hk⟩).height)) →
      drawAll canvasW maxW maxH cols spacing hA vA L i0 d (py * canvasW + px) =
        d (py * canvasW + px) := by
  intro L
  induction L with
  | nil =>
    intro i0 d _
    rfl
  | cons img rest ih =>
    intro i0 d hnc
    have hsh : ∀ k, (hk : k < rest.length) →
        ¬ (drawX cols maxW spacing hA (i0 + 1 + k) (rest.get ⟨k, hk⟩) ≤ px ∧
            px < drawX cols maxW spacing hA (i0 + 1 + k) (rest.get ⟨k, hk⟩) +
              (rest.get ⟨k, hk⟩).width ∧
            drawY cols maxH spacing vA (i0 + 1 + k) (rest.get ⟨k, hk⟩) ≤ py ∧
            py < drawY cols maxH spacing vA (i0 + 1 + k) (rest.get ⟨k, hk⟩) +
              (rest.get ⟨k, hk⟩).height) := by
      intro k hk
      have h := hnc (k + 1) (Nat.succ_lt_succ hk)
      have he : i0 + (k + 1) = i0 + 1 + k := by omega
      rw [he] at h
      exact h
    show drawAll canvasW maxW maxH cols spacing hA vA rest (i0 + 1)
        (blit canvasW img (drawX cols maxW spacing hA i0 img)
          (drawY cols maxH spacing vA i0 img) d) (py * canvasW + px) = d (py * canvasW + px)
    rw [ih (i0 + 1) _ hsh]
    rw [blit_apply canvasW img _ _ d px py hpx]
    rw [if_neg]
    have h0 := hnc 0 (Nat.succ_pos _)
    simpa using h0

/-- The final canvas holds, inside the rectangle of image number
`i0 + k`, exactly that image's pixels: the draw of image `i0 + k` writes
them and no later draw covers the same rectangle. -/
theorem drawAll_get (canvasW maxW maxH cols spacing : Nat) (hA : HAlign) (vA : VAlign)
    (_hcols : 1 ≤ cols) :
    ∀ (L : List Buffer) (i0 : Nat) (d : Nat → Pix) (k : Nat) (hk : k < L.length) (u v : Nat),
      (∀ bb ∈ L, bb.width ≤ maxW) → (∀ bb ∈ L, bb.height ≤ maxH) →
      (∀ j, j < i0 + L.length → (j % cols) * (maxW + spacing) + maxW ≤ canvasW) →
      u < (L.get ⟨k, hk⟩).width → v < (L.get ⟨k, hk⟩).height →
      drawAll canvasW maxW maxH cols spacing hA vA L i0 d
          ((drawY cols maxH spacing vA (i0 + k) (L.get ⟨k, hk⟩) + v) * canvasW +
            (drawX cols maxW spacing hA (i0 + k) (L.get ⟨k, hk⟩) + u)) =
        (L.get ⟨k, hk⟩).data (v * (L.get ⟨k, hk⟩).width + u) := by
  intro L
  induction L with
  | nil =>
    intro i0 d k hk
    exact absurd hk (by simp)
  | cons img rest ih =>
    intro i0 d k hk u v hW hH hfit hu hv
    cases k with
    | zero =>
      simp only [Nat.add_zero, List.get] at hu hv ⊢
      have hwle : img.width ≤ maxW := hW img (List.mem_cons_self _ _)
      have hhle : img.height ≤ maxH := hH img (List.mem_cons_self _ _)
      have hxoff := xOffsetOf_add_le hA hwle
      have hpx_lt : drawX cols maxW spacing hA i0 img + u < canvasW := by
        have h2 := hfit i0 (by
          have : 0 < (img :: rest).length := Nat.succ_pos _
          omega)
        unfold drawX
        obtain ⟨A, hA2⟩ : ∃ A, (i0 % cols) * (maxW + spacing) = A := ⟨_, rfl⟩
        rw [hA2] at h2 ⊢
        omega
      show drawAll canvasW maxW maxH cols spacing hA vA rest (i0 + 1)
          (blit canvasW img (drawX cols maxW spacing hA i0 img)
            (drawY cols maxH spacing vA i0 img) d)
          ((drawY cols maxH spacing vA i0 img + v) * canvasW +
            (drawX cols maxW spacing hA i0 img + u)) =
        img.data (v * img.width + u)
      rw [drawAll_frame canvasW maxW maxH cols spacing hA vA
        (drawX cols maxW spacing hA i0 img + u)
        (drawY cols maxH spacing vA i0 img + v) hpx_lt rest (i0 + 1) _ ?hdisj]
      case hdisj =>
        intro k2 hk2
        exact covers_disjoint cols maxW maxH spacing hA vA i0 (i0 + 1 + k2) (by omega)
          img (rest.get ⟨k2, hk2⟩) hwle hhle
          (hW _ (List.mem_cons_of_mem _ (rest.get_mem k2 hk2)))
          (hH _ (List.mem_cons_of_mem _ (rest.get_mem k2 hk2))) u v hu hv
      rw [blit_apply canvasW img _ _ d _ _ hpx_lt]
      rw [if_pos ⟨Nat.le_add_right _ _, by omega, Nat.le_add_right _ _, by omega⟩]
      rw [Nat.add_sub_cancel_left, Nat.add_sub_cancel_left]
    | succ kp =>
      have hk2 : kp < rest.length := by
        have := hk
        simp only [List.length_cons] at this
        omega
      have he : i0 + (kp + 1) = i0 + 1 + kp := by omega
      show drawAll canvasW maxW maxH cols spacing hA vA rest (i0 + 1)
          (blit canvasW img (drawX cols maxW spacing hA i0 img)
            (drawY cols maxH spacing vA i0 img) d)
          ((drawY cols maxH spacing vA (i0 + (kp + 1)) (rest.get ⟨kp, hk2⟩) + v) * canvasW +
            (drawX cols maxW spacing hA (i0 + (kp + 1)) (rest.get ⟨kp, hk2⟩) + u)) =
        (rest.get ⟨kp, hk2⟩).data (v * (rest.get ⟨kp, hk2⟩).width + u)
      rw [he]
      refine ih (i0 + 1) _ kp hk2 u v
        (fun bb hbb => hW bb (List.mem_cons_of_mem _ hbb))
        (fun bb hbb => hH bb (List.mem_cons_of_mem _ hbb))
        (fun j hj => hfit j (by
          simp only [List.length_cons]
          omega)) ?_ ?_
      · exact hu
      · exact hv

/-! ## Claim C4 -/

/-- C4: image `i` is placed at cell `(i mod cols, i div cols)` with cell
origin `(col·(cellW+spacing), row·(cellH+spacing))`, offset inside the
cell by the alignment rule — horizontal 0 / floor((cellW−w)/2) / cellW−w,
vertical 0 / floor((cellH−h)/2) / cellH−h —: every pixel `(u,v)` of
image `i` appears at exactly that position of the output canvas. -/
theorem assemble_places_images (imgs : List Buffer) (cols spacing : Nat)
    (hA : HAlign) (vA : VAlign) (i u v : Nat) (hcols : 1 ≤ cols)
    (hi : i < imgs.length) (hu : u < (imgs.get ⟨i, hi⟩).width)
    (hv : v < (imgs.get ⟨i, hi⟩).height) :
    ∃ out, handleAssembleSheet imgs cols spacing hA vA = AsmResult.ok out ∧
      out.data
          (((i / cols) * (maxHeightOf imgs + spacing) +
                yOffsetOf vA (maxHeightOf imgs) (imgs.get ⟨i, hi⟩).height + v) * out.width +
            ((i % cols) * (maxWidthOf imgs + spacing) +
              xOffsetOf hA (maxWidthOf imgs) (imgs.get ⟨i, hi⟩).width + u)) =
        (imgs.get ⟨i, hi⟩).data (v * (imgs.get ⟨i, hi⟩).width + u) := by
  have hlen : imgs.length ≠ 0 := by
    intro h
    rw [h] at hi
    exact absurd hi (by omega)
  refine ⟨_, handleAssembleSheet_eq imgs cols spacing hA vA hlen, ?_⟩
  have hW : ∀ bb ∈ imgs, bb.width ≤ maxWidthOf imgs := fun bb hbb =>
    (foldl_max_facts (imgs.map Buffer.width) 0).2.2 _ (List.mem_map_of_mem _ hbb)
  have hH : ∀ bb ∈ imgs, bb.height ≤ maxHeightOf imgs := fun bb hbb =>
    (foldl_max_facts (imgs.map Buffer.height) 0).2.2 _ (List.mem_map_of_mem _ hbb)
  have hfit : ∀ j, j < 0 + imgs.length →
      (j % cols) * (maxWidthOf imgs + spacing) + maxWidthOf imgs ≤
        (if imgs.length = 1 then maxWidthOf imgs
          else cols * maxWidthOf imgs + (cols - 1) * spacing) := by
    intro j hj
    by_cases h1 : imgs.length = 1
    · rw [if_pos h1]
      rw [h1] at hj
      have hj0 : j = 0 := by omega
      subst hj0
      simp
    · rw [if_neg h1]
      exact fit_bound hcols j
  have h := drawAll_get
    (if imgs.length = 1 then maxWidthOf imgs
      else cols * maxWidthOf imgs + (cols - 1) * spacing)
    (maxWidthOf imgs) (maxHeightOf imgs) cols spacing hA vA hcols imgs 0
    (fun _ => transparent) i hi u v hW hH hfit hu hv
  rw [Nat.zero_add] at h
  exact h

/-- Witness for C4: an 8×8 image placed, centered both ways, in the
second cell of a two-column sheet whose other image is 16×16, matching
the spec's alignment instance (offset (4,4) inside the cell). -/
theorem assemble_places_images_witness :
    ((1 : Nat) ≤ 2 ∧ (1 : Nat) < 2 ∧ (0 : Nat) < 8 ∧ (0 : Nat) < 8) ∧
      ∃ out, handleAssembleSheet [mkBuf 16 16 [], mkBuf 8 8 [⟨1, 2, 3, 4⟩]] 2 0
          HAlign.center VAlign.center = AsmResult.ok out ∧
        out.data
            (((1 / 2) * (maxHeightOf [mkBuf 16 16 [], mkBuf 8 8 [⟨1, 2, 3, 4⟩]] + 0) +
                  yOffsetOf VAlign.center
                    (maxHeightOf [mkBuf 16 16 [], mkBuf 8 8 [⟨1, 2, 3, 4⟩]]) 8 + 0) *
                out.width +
              ((1 % 2) * (maxWidthOf [mkBuf 16 16 [], mkBuf 8 8 [⟨1, 2, 3, 4⟩]] + 0) +
                xOffsetOf HAlign.center
                  (maxWidthOf [mkBuf 16 16 [], mkBuf 8 8 [⟨1, 2, 3, 4⟩]]) 8 + 0)) =
          (mkBuf 8 8 [⟨1, 2, 3, 4⟩]).data (0 * 8 + 0) :=
  ⟨⟨by decide, by decide, by decide, by decide⟩,
    assemble_places_images [mkBuf 16 16 [], mkBuf 8 8 [⟨1, 2, 3, 4⟩]] 2 0 HAlign.center
      VAlign.center 1 0 0 (by decide) (by decide) (by decide) (by decide)⟩

end PixelDreamer
